import Mathlib

/-!
Verification of the perception-to-control pipeline of the vision-based
autonomous car simulator: the kinematic bicycle model (`src/car.py`), the
lane detector and the two control laws (`src/controllers.py`), and the
per-tick driver loop (`src/main.py`).

Real-valued quantities of the Python code (which computes in IEEE doubles)
are embedded as real numbers; decimal literals such as `0.5`, `0.4`, `0.1`,
`2.5` are the exact rationals the source text denotes.  The lane detector,
which works on integer pixel grids, is embedded over `Nat`/`ℚ` and is fully
executable.
-/

open Real

/-- `np.clip(x, lo, hi)` = `min (max x lo) hi` (NumPy documents `clip` as
`minimum(a_max, maximum(a, a_min))`). -/
noncomputable def npClip (x lo hi : ℝ) : ℝ := min (max x lo) hi

/-- Modelled from the spec: the numeric constants that `src/car.py` and
`src/controllers.py` import from `config.py`, a module of this repository
that is not present under `src/`: `MAX_STEERING_ANGLE`, `MIN_SPEED`,
`MAX_SPEED` and `WHEELBASE`.  The spec fixes no numeric values for them
("Fixed numeric constants (must match for behavioral compatibility)"), so
they are carried as parameters. -/
structure Config where
  maxSteeringAngle : ℝ
  minSpeed : ℝ
  maxSpeed : ℝ
  wheelbase : ℝ

/-- `VisionPurePursuit.calculate_steering`, `src/controllers.py` lines
191-199 (the pure-pursuit law applied after the vision estimate is
obtained): error from center, look-ahead floored at `1.0`, gain `3000`,
result clipped to the steering limits. -/
noncomputable def calculate_steering (maxSteeringAngle lookAheadDistance laneCenter : ℝ) : ℝ :=
  let steeringError := laneCenter - 0.5
  let safeLookAhead := max lookAheadDistance 1
  let steering := steeringError * (3000 / safeLookAhead)
  npClip steering (-maxSteeringAngle) maxSteeringAngle

/-- `SpeedController.calculate_speed`, `src/controllers.py` lines 215-218:
`base_speed * max (1 - (|steering| / MAX_STEERING_ANGLE) * 0.4) 0.5`. -/
noncomputable def calculate_speed (maxSteeringAngle steeringAngle baseSpeed : ℝ) : ℝ :=
  let steeringFactor := 1 - (|steeringAngle| / maxSteeringAngle) * 0.4
  baseSpeed * max steeringFactor 0.5

/-- C1: for every real lane estimate `e` and every real look-ahead distance
`d` (zero and negative `d` included), `calculate_steering` returns
`clamp ((e - 0.5) * (3000 / max d 1)) (-M) M` where `M` is
`MAX_STEERING_ANGLE`; and (for `0 ≤ M`) the returned steering command lies
within `[-M, M]` (as a real number it is in particular finite). -/
theorem C1_computeSteering_clamped (M e d : ℝ) (hM : 0 ≤ M) :
    calculate_steering M d e = npClip ((e - 0.5) * (3000 / max d 1)) (-M) M ∧
    -M ≤ calculate_steering M d e ∧ calculate_steering M d e ≤ M := by
  refine ⟨rfl, ?_, ?_⟩
  · exact le_min (le_max_right _ _) (by linarith)
  · exact min_le_right _ _

/-- Witness for C1 at `M = 30`, `e = 1`, `d = 0`. -/
theorem C1_computeSteering_clamped_witness :
    (0:ℝ) ≤ 30 ∧
      (calculate_steering 30 0 1 = npClip (((1:ℝ) - 0.5) * (3000 / max 0 1)) (-30) 30 ∧
        -30 ≤ calculate_steering 30 0 1 ∧ calculate_steering 30 0 1 ≤ 30) :=
  ⟨by norm_num, C1_computeSteering_clamped 30 1 0 (by norm_num)⟩

/-- C5: for `MAX_STEERING_ANGLE = M ≥ 0` and `baseSpeed = b ≥ 0`,
`calculate_speed` returns `b * max (1 - (|s| / M) * 0.4) 0.5`; it is
non-increasing in `|s|` and never drops below `0.5 * b`. -/
theorem C5_computeSpeed_monotone (M b : ℝ) (hM : 0 ≤ M) (hb : 0 ≤ b) :
    (∀ s : ℝ, calculate_speed M s b = b * max (1 - (|s| / M) * 0.4) 0.5) ∧
    (∀ s₁ s₂ : ℝ, |s₁| ≤ |s₂| → calculate_speed M s₂ b ≤ calculate_speed M s₁ b) ∧
    (∀ s : ℝ, 0.5 * b ≤ calculate_speed M s b) := by
  refine ⟨fun s => rfl, ?_, ?_⟩
  · intro s₁ s₂ h
    unfold calculate_speed
    have hdiv : |s₁| / M ≤ |s₂| / M := by
      rcases eq_or_lt_of_le hM with hM0 | hM0
      · simp [← hM0]
      · exact (div_le_div_iff_of_pos_right hM0).mpr h
    have hmax : max (1 - |s₂| / M * 0.4) 0.5 ≤ max (1 - |s₁| / M * 0.4) 0.5 :=
      max_le_max (by linarith) le_rfl
    exact mul_le_mul_of_nonneg_left hmax hb
  · intro s
    unfold calculate_speed
    have h5 : (0.5:ℝ) ≤ max (1 - |s| / M * 0.4) 0.5 := le_max_right _ _
    calc (0.5:ℝ) * b = b * 0.5 := by ring
    _ ≤ b * max (1 - |s| / M * 0.4) 0.5 := mul_le_mul_of_nonneg_left h5 hb

/-- Witness for C5 at `M = 30`, `b = 5`, steering angles `0` and `10`. -/
theorem C5_computeSpeed_monotone_witness :
    (0:ℝ) ≤ 30 ∧ (0:ℝ) ≤ 5 ∧
      calculate_speed 30 0 5 = 5 * max (1 - (|(0:ℝ)| / 30) * 0.4) 0.5 ∧
      calculate_speed 30 10 5 ≤ calculate_speed 30 0 5 ∧
      0.5 * 5 ≤ calculate_speed 30 0 5 := by
  have h := C5_computeSpeed_monotone 30 5 (by norm_num) (by norm_num)
  refine ⟨by norm_num, by norm_num, h.1 0, h.2.1 0 10 ?_, h.2.2 0⟩
  rw [abs_zero]
  exact abs_nonneg _

/-- First heading-wrapping loop of `Car.update` (`src/car.py` lines 62-63):
`while self.angle > 180: self.angle -= 360`. -/
noncomputable def wrapDown (a : ℝ) : ℝ :=
  if h : 180 < a then wrapDown (a - 360) else a
termination_by (⌈a⌉).toNat
decreasing_by
  have h1 : (180:ℤ) < ⌈a⌉ := by exact_mod_cast lt_of_lt_of_le h (Int.le_ceil a)
  have h2 : ⌈a - 360⌉ = ⌈a⌉ - 360 := by exact_mod_cast Int.ceil_sub_int a 360
  rw [h2]
  omega

/-- Second heading-wrapping loop of `Car.update` (`src/car.py` lines 64-65):
`while self.angle < -180: self.angle += 360`. -/
noncomputable def wrapUp (a : ℝ) : ℝ :=
  if h : a < -180 then wrapUp (a + 360) else a
termination_by (-⌊a⌋).toNat
decreasing_by
  have h1 : ⌊a⌋ < -180 := by exact_mod_cast lt_of_le_of_lt (Int.floor_le a) h
  have h2 : ⌊a + 360⌋ = ⌊a⌋ + 360 := by exact_mod_cast Int.floor_add_int a 360
  rw [h2]
  omega

/-- The two wrapping loops run in sequence, as in the source. -/
noncomputable def wrapAngle (a : ℝ) : ℝ := wrapUp (wrapDown a)

lemma wrapDown_le_180 (a : ℝ) : wrapDown a ≤ 180 := by
  induction a using wrapDown.induct with
  | case1 a h ih =>
    rw [wrapDown]
    simpa only [dif_pos h] using ih
  | case2 a h =>
    rw [wrapDown]
    simp only [dif_neg h]
    linarith [not_lt.mp h]

lemma wrapUp_ge (a : ℝ) : -180 ≤ wrapUp a := by
  induction a using wrapUp.induct with
  | case1 a h ih =>
    rw [wrapUp]
    simpa only [dif_pos h] using ih
  | case2 a h =>
    rw [wrapUp]
    simp only [dif_neg h]
    linarith [not_lt.mp h]

lemma wrapUp_le_of_le (a : ℝ) (ha : a ≤ 180) : wrapUp a ≤ 180 := by
  induction a using wrapUp.induct with
  | case1 a h ih =>
    rw [wrapUp]
    simp only [dif_pos h]
    exact ih (by linarith)
  | case2 a h =>
    rw [wrapUp]
    simpa only [dif_neg h] using ha

lemma wrapAngle_bounds (a : ℝ) : -180 ≤ wrapAngle a ∧ wrapAngle a ≤ 180 :=
  ⟨wrapUp_ge _, wrapUp_le_of_le _ (wrapDown_le_180 a)⟩

/-- Vehicle state held by `Car` (`src/car.py`): pose, speed, stored steering
angle and the motion trail of `(x, y, speed)` samples. -/
structure Car where
  x : ℝ
  y : ℝ
  angle : ℝ
  speed : ℝ
  steering_angle : ℝ
  trail : List (ℝ × ℝ × ℝ)

/-- `Car.__init__` (`src/car.py` lines 13-27): initial speed `2.5`,
steering angle `0`, empty trail. -/
noncomputable def mkCar (x y angle : ℝ) : Car :=
  { x := x, y := y, angle := angle, speed := 2.5, steering_angle := 0, trail := [] }

/-- `np.radians`: degrees to radians. -/
noncomputable def radians (d : ℝ) : ℝ := d * (Real.pi / 180)

/-- `np.degrees`: radians to degrees. -/
noncomputable def degrees (r : ℝ) : ℝ := r * (180 / Real.pi)

/-- `Car.update` (`src/car.py` lines 33-70): clamp the steering input, clamp
the optional speed input, kinematic bicycle step, heading wrap, bounded
trail append. -/
noncomputable def update (cfg : Config) (c : Car) (steeringInput : ℝ)
    (speedInput : Option ℝ) : Car :=
  let steeringAngle := npClip steeringInput (-cfg.maxSteeringAngle) cfg.maxSteeringAngle
  let speed := match speedInput with
    | some v => npClip v cfg.minSpeed cfg.maxSpeed
    | none => c.speed
  let headingRad := radians c.angle
  let steeringRad := radians steeringAngle
  let angularVelocity := if 0.1 < |steeringAngle| then
      let turnRadius := cfg.wheelbase / Real.tan steeringRad
      speed / turnRadius
    else (0:ℝ)
  let x := c.x + speed * Real.cos headingRad
  let y := c.y + speed * Real.sin headingRad
  let angle := wrapAngle (c.angle + degrees angularVelocity)
  let trail := c.trail ++ [(x, y, speed)]
  { x := x, y := y, angle := angle, speed := speed, steering_angle := steeringAngle,
    trail := if 150 < trail.length then trail.tail else trail }

/-- C2: one `update` step stores the steering input clamped to the steering
limits; if the clamped steering magnitude exceeds `0.1` degrees it uses
`angularVelocity = speed / (wheelbase / tan steeringAngle)` (steering taken
in radians) and otherwise `angularVelocity = 0`; and it advances `x` by
`speed * cos heading`, `y` by `speed * sin heading` and the heading by
`degrees angularVelocity` - a single Euler step with implicit `Δt = 1` -
before wrapping the heading. -/
theorem C2_update_bicycle_step (cfg : Config) (c : Car) (s : ℝ) (sp : Option ℝ) :
    (update cfg c s sp).steering_angle
        = npClip s (-cfg.maxSteeringAngle) cfg.maxSteeringAngle ∧
    (update cfg c s sp).x
        = c.x + (update cfg c s sp).speed * Real.cos (radians c.angle) ∧
    (update cfg c s sp).y
        = c.y + (update cfg c s sp).speed * Real.sin (radians c.angle) ∧
    (update cfg c s sp).angle
        = wrapAngle (c.angle + degrees (
            if 0.1 < |(update cfg c s sp).steering_angle| then
              (update cfg c s sp).speed
                / (cfg.wheelbase / Real.tan (radians (update cfg c s sp).steering_angle))
            else 0)) :=
  ⟨rfl, rfl, rfl, rfl⟩

/-- C6 (amended): after every `update`, the stored heading lies in the
closed interval `[-180, 180]`. -/
theorem C6_heading_wrapped (cfg : Config) (c : Car) (s : ℝ) (sp : Option ℝ) :
    -180 ≤ (update cfg c s sp).angle ∧ (update cfg c s sp).angle ≤ 180 := by
  simp only [update]
  exact wrapAngle_bounds _

/-- A configuration with representative positive constants, for concrete
counterexample evaluations. -/
noncomputable def cfg0 : Config :=
  { maxSteeringAngle := 30, minSpeed := 1, maxSpeed := 8, wheelbase := 50 }

/-- A car whose heading is exactly `-180` degrees. -/
noncomputable def car180 : Car :=
  { x := 0, y := 0, angle := -180, speed := 0, steering_angle := 0, trail := [] }

lemma wrapAngle_neg180 : wrapAngle (-180 : ℝ) = -180 := by
  rw [wrapAngle, wrapDown, dif_neg (by norm_num : ¬ (180:ℝ) < -180),
    wrapUp, dif_neg (by norm_num : ¬ (-180:ℝ) < -180)]

/-- C6 counterexample: updating from heading `-180` with steering input `0`
leaves the stored heading at exactly `-180`, which is not strictly greater
than `-180`, so the claimed half-open interval `(-180, 180]` fails. -/
theorem C6_heading_cex :
    (update cfg0 car180 0 none).angle = -180 ∧
    ¬ (-180 < (update cfg0 car180 0 none).angle) := by
  have h1 : (update cfg0 car180 0 none).angle = -180 := by
    simp only [update, car180, cfg0]
    rw [show npClip 0 (-(30:ℝ)) 30 = 0 by rw [npClip]; norm_num]
    rw [if_neg (by rw [abs_zero]; norm_num)]
    rw [show degrees 0 = 0 by rw [degrees]; ring]
    rw [show (-180:ℝ) + 0 = -180 by ring]
    exact wrapAngle_neg180
  exact ⟨h1, by rw [h1]; norm_num⟩

/-- C10: calling `update` with the speed input absent leaves the speed field
exactly unchanged - the stored speed is not re-clamped, so a value set from
outside the clamp range persists through such updates. -/
theorem C10_speed_unchanged_when_absent (cfg : Config) (c : Car) (s : ℝ) :
    (update cfg c s none).speed = c.speed := rfl

/-- The last `n` elements of a list. -/
def takeLast {α : Type} (n : Nat) (l : List α) : List α := l.drop (l.length - n)

lemma takeLast_length {α : Type} (n : Nat) (l : List α) :
    (takeLast n l).length = min n l.length := by
  simp only [takeLast, List.length_drop]
  omega

lemma takeLast_of_length_le {α : Type} (n : Nat) (l : List α) (h : l.length ≤ n) :
    takeLast n l = l := by
  simp only [takeLast, Nat.sub_eq_zero_of_le h, List.drop_zero]

lemma takeLast_append_singleton {α : Type} (l : List α) (a : α) (n : Nat) :
    takeLast (n + 1) (l ++ [a]) = takeLast n l ++ [a] := by
  simp only [takeLast, List.length_append, List.length_singleton]
  rw [List.drop_append_eq_append_drop]
  have h1 : l.length + 1 - (n + 1) = l.length - n := by omega
  have h2 : l.length - n - l.length = 0 := by omega
  rw [h1, h2, List.drop_zero]

lemma takeLast_tail {α : Type} (n : Nat) (l : List α) (h : n + 1 ≤ l.length) :
    (takeLast (n + 1) l).tail = takeLast n l := by
  simp only [takeLast, List.tail_drop]
  congr 1
  omega

/-- Like `update`, but keeping the unbounded trail: the full chronological
sequence of appended `(x, y, speed)` samples, used as the history against
which the bounded trail is compared. -/
noncomputable def updateHist (cfg : Config) (c : Car) (steeringInput : ℝ)
    (speedInput : Option ℝ) : Car :=
  let steeringAngle := npClip steeringInput (-cfg.maxSteeringAngle) cfg.maxSteeringAngle
  let speed := match speedInput with
    | some v => npClip v cfg.minSpeed cfg.maxSpeed
    | none => c.speed
  let headingRad := radians c.angle
  let steeringRad := radians steeringAngle
  let angularVelocity := if 0.1 < |steeringAngle| then
      let turnRadius := cfg.wheelbase / Real.tan steeringRad
      speed / turnRadius
    else (0:ℝ)
  let x := c.x + speed * Real.cos headingRad
  let y := c.y + speed * Real.sin headingRad
  let angle := wrapAngle (c.angle + degrees angularVelocity)
  { x := x, y := y, angle := angle, speed := speed, steering_angle := steeringAngle,
    trail := c.trail ++ [(x, y, speed)] }

lemma bounded_step_eq_takeLast {α : Type} (t H : List α) (a : α)
    (ht : t = takeLast 150 H) :
    (if 150 < (t ++ [a]).length then (t ++ [a]).tail else t ++ [a])
      = takeLast 150 (H ++ [a]) := by
  have hlen : t.length = min 150 H.length := by rw [ht, takeLast_length]
  by_cases hH : H.length < 150
  · have ht' : t = H := by rw [ht, takeLast_of_length_le _ _ (by omega)]
    have hne : ¬ 150 < (t ++ [a]).length := by
      rw [List.length_append, List.length_singleton]
      omega
    rw [if_neg hne, ht']
    exact (takeLast_of_length_le _ _ (by
      rw [List.length_append, List.length_singleton]
      omega)).symm
  · have htl : t.length = 150 := by omega
    have hpos : 150 < (t ++ [a]).length := by
      rw [List.length_append, List.length_singleton]
      omega
    rw [if_pos hpos, show (150:Nat) = 149 + 1 from rfl, takeLast_append_singleton]
    have ht149 : t.tail = takeLast 149 H := by
      rw [ht]
      exact takeLast_tail 149 H (by omega)
    cases t with
    | nil => simp at htl
    | cons b t' =>
      simp only [List.cons_append, List.tail_cons]
      rw [← ht149, List.tail_cons]

lemma update_step_rel (cfg : Config) (c h : Car) (s : ℝ) (sp : Option ℝ)
    (hx : c.x = h.x) (hy : c.y = h.y) (ha : c.angle = h.angle)
    (hs : c.speed = h.speed) (hst : c.steering_angle = h.steering_angle)
    (ht : c.trail = takeLast 150 h.trail) :
    (update cfg c s sp).x = (updateHist cfg h s sp).x ∧
    (update cfg c s sp).y = (updateHist cfg h s sp).y ∧
    (update cfg c s sp).angle = (updateHist cfg h s sp).angle ∧
    (update cfg c s sp).speed = (updateHist cfg h s sp).speed ∧
    (update cfg c s sp).steering_angle = (updateHist cfg h s sp).steering_angle ∧
    (update cfg c s sp).trail = takeLast 150 (updateHist cfg h s sp).trail := by
  refine ⟨?_, ?_, ?_, ?_, ?_, ?_⟩ <;>
    simp only [update, updateHist, hx, hy, ha, hs, hst, ht]
  exact bounded_step_eq_takeLast _ _ _ rfl

/-- Repeated `update` steps driven by a list of `(steering, optional speed)`
inputs. -/
noncomputable def run (cfg : Config) : Car → List (ℝ × Option ℝ) → Car
  | c, [] => c
  | c, i :: rest => run cfg (update cfg c i.1 i.2) rest

/-- Repeated `updateHist` steps: same dynamics, unbounded history trail. -/
noncomputable def runHist (cfg : Config) : Car → List (ℝ × Option ℝ) → Car
  | c, [] => c
  | c, i :: rest => runHist cfg (updateHist cfg c i.1 i.2) rest

lemma run_rel (cfg : Config) :
    ∀ (inputs : List (ℝ × Option ℝ)) (c h : Car),
      c.x = h.x → c.y = h.y → c.angle = h.angle → c.speed = h.speed →
      c.steering_angle = h.steering_angle → c.trail = takeLast 150 h.trail →
      (run cfg c inputs).trail = takeLast 150 (runHist cfg h inputs).trail
  | [], c, h, hx, hy, ha, hs, hst, ht => by
      simpa only [run, runHist] using ht
  | i :: rest, c, h, hx, hy, ha, hs, hst, ht => by
      obtain ⟨h1, h2, h3, h4, h5, h6⟩ := update_step_rel cfg c h i.1 i.2 hx hy ha hs hst ht
      simpa only [run, runHist] using run_rel cfg rest _ _ h1 h2 h3 h4 h5 h6

/-- C7: from a freshly constructed car, after any number of `update` calls
the motion trail has length at most 150 and equals the length-at-most-150
suffix of the full chronological sample history: the most recent samples,
in order, with the oldest evicted first (FIFO). -/
theorem C7_trail_bounded_fifo (cfg : Config) (x0 y0 a0 : ℝ)
    (inputs : List (ℝ × Option ℝ)) :
    (run cfg (mkCar x0 y0 a0) inputs).trail.length ≤ 150 ∧
    (run cfg (mkCar x0 y0 a0) inputs).trail
      = takeLast 150 (runHist cfg (mkCar x0 y0 a0) inputs).trail := by
  have h := run_rel cfg inputs (mkCar x0 y0 a0) (mkCar x0 y0 a0) rfl rfl rfl rfl rfl
    (by simp [mkCar, takeLast])
  refine ⟨?_, h⟩
  rw [h, takeLast_length]
  omega

lemma npClip_mem (x lo hi : ℝ) (h : lo ≤ hi) : lo ≤ npClip x lo hi ∧ npClip x lo hi ≤ hi :=
  ⟨le_min (le_max_right _ _) h, min_le_right _ _⟩

/-- `Simulation.handle_events` effect on the vehicle (`src/main.py` line
202): `self.car.speed = self.ui.speed_slider.value` writes the slider value
straight into the vehicle state, bypassing `Car.update`. -/
def handle_events_car (c : Car) (sliderValue : ℝ) : Car := { c with speed := sliderValue }

/-- One iteration of the driver loop (`src/main.py`: `handle_events`, then
`Simulation.update` lines 212-227): slider write into the car, steering from
vision, speed law on the current car speed, dynamics update.  The vision
estimate entering the pure-pursuit law is abstracted as `laneEstimate`. -/
noncomputable def sim_tick (cfg : Config) (c : Car)
    (sliderSpeed lookAhead laneEstimate : ℝ) : Car :=
  let c1 := handle_events_car c sliderSpeed
  let steering := calculate_steering cfg.maxSteeringAngle lookAhead laneEstimate
  let speed := calculate_speed cfg.maxSteeringAngle steering c1.speed
  update cfg c1 steering (some speed)

/-- C9 (amended): at the end of every driver tick - after the dynamics
update - the stored speed lies in `[MIN_SPEED, MAX_SPEED]` and the stored
steering angle in `[-MAX_STEERING_ANGLE, MAX_STEERING_ANGLE]` (for a
configuration with `MIN_SPEED ≤ MAX_SPEED` and `0 ≤ MAX_STEERING_ANGLE`). -/
theorem C9_post_tick_bounds (cfg : Config) (c : Car)
    (sliderSpeed lookAhead laneEstimate : ℝ)
    (hs : cfg.minSpeed ≤ cfg.maxSpeed) (hM : 0 ≤ cfg.maxSteeringAngle) :
    cfg.minSpeed ≤ (sim_tick cfg c sliderSpeed lookAhead laneEstimate).speed ∧
    (sim_tick cfg c sliderSpeed lookAhead laneEstimate).speed ≤ cfg.maxSpeed ∧
    -cfg.maxSteeringAngle ≤ (sim_tick cfg c sliderSpeed lookAhead laneEstimate).steering_angle ∧
    (sim_tick cfg c sliderSpeed lookAhead laneEstimate).steering_angle
      ≤ cfg.maxSteeringAngle := by
  have h1 : (sim_tick cfg c sliderSpeed lookAhead laneEstimate).speed
      = npClip (calculate_speed cfg.maxSteeringAngle
          (calculate_steering cfg.maxSteeringAngle lookAhead laneEstimate) sliderSpeed)
          cfg.minSpeed cfg.maxSpeed := rfl
  have h2 : (sim_tick cfg c sliderSpeed lookAhead laneEstimate).steering_angle
      = npClip (calculate_steering cfg.maxSteeringAngle lookAhead laneEstimate)
          (-cfg.maxSteeringAngle) cfg.maxSteeringAngle := rfl
  rw [h1, h2]
  obtain ⟨a1, a2⟩ := npClip_mem (calculate_speed cfg.maxSteeringAngle
    (calculate_steering cfg.maxSteeringAngle lookAhead laneEstimate) sliderSpeed)
    cfg.minSpeed cfg.maxSpeed hs
  obtain ⟨b1, b2⟩ := npClip_mem (calculate_steering cfg.maxSteeringAngle lookAhead laneEstimate)
    (-cfg.maxSteeringAngle) cfg.maxSteeringAngle (by linarith)
  exact ⟨a1, a2, b1, b2⟩

/-- Witness for C9 (amended) at a concrete configuration and tick input. -/
theorem C9_post_tick_bounds_witness :
    cfg0.minSpeed ≤ cfg0.maxSpeed ∧ (0:ℝ) ≤ cfg0.maxSteeringAngle ∧
      (cfg0.minSpeed ≤ (sim_tick cfg0 (mkCar 0 0 0) 5 60 0.5).speed ∧
        (sim_tick cfg0 (mkCar 0 0 0) 5 60 0.5).speed ≤ cfg0.maxSpeed ∧
        -cfg0.maxSteeringAngle ≤ (sim_tick cfg0 (mkCar 0 0 0) 5 60 0.5).steering_angle ∧
        (sim_tick cfg0 (mkCar 0 0 0) 5 60 0.5).steering_angle ≤ cfg0.maxSteeringAngle) :=
  ⟨by norm_num [cfg0], by norm_num [cfg0],
    C9_post_tick_bounds cfg0 (mkCar 0 0 0) 5 60 0.5 (by norm_num [cfg0]) (by norm_num [cfg0])⟩

/-- C9 counterexample: the event handler itself mutates the vehicle state.
With the speed slider at `50`, `handle_events` changes the stored speed of a
freshly constructed car (speed `2.5`), so `VehicleState` is not mutated only
by the dynamics update operation. -/
theorem C9_mutation_cex : handle_events_car (mkCar 0 0 0) 50 ≠ mkCar 0 0 0 := by
  intro hEq
  have h := congrArg Car.speed hEq
  simp only [handle_events_car, mkCar] at h
  norm_num at h

/-- An HSV pixel as produced by `cv2.cvtColor(..., COLOR_BGR2HSV)` on 8-bit
images: hue in `[0,180]`, saturation and value in `[0,255]`.  The detector
is embedded from this representation on; the BGR-to-HSV conversion is the
external OpenCV color transform applied pointwise before `inRange`. -/
structure HSVPixel where
  hue : Nat
  sat : Nat
  val : Nat

/-- `cv2.inRange(hsv, (35,80,80), (85,255,255))` (`src/controllers.py` lines
17-18 and 96): inclusive bounds on each channel. -/
def inGreenRange (p : HSVPixel) : Bool :=
  decide (35 ≤ p.hue) && decide (p.hue ≤ 85) && decide (80 ≤ p.sat) &&
    decide (p.sat ≤ 255) && decide (80 ≤ p.val) && decide (p.val ≤ 255)

/-- The binary mask of detection-color pixels. -/
def colorMask (img : Nat → Nat → HSVPixel) : Nat → Nat → Bool :=
  fun i j => inGreenRange (img i j)

/-- Index offsets of the `3 × 3` ones kernel, anchored at its center. -/
def kernelOffs : List Nat := [0, 1, 2]

/-- `cv2.dilate` with the `3 × 3` ones kernel on an `hh × ww` mask: a pixel
is set iff some in-bounds neighbor is set (out-of-bounds neighbors are
ignored, as with OpenCV's default morphology border handling). -/
def dilate3 (hh ww : Nat) (m : Nat → Nat → Bool) (i j : Nat) : Bool :=
  kernelOffs.any fun di => kernelOffs.any fun dj =>
    decide (1 ≤ i + di) && decide (i + di ≤ hh) && decide (1 ≤ j + dj) &&
      decide (j + dj ≤ ww) && m (i + di - 1) (j + dj - 1)

/-- `cv2.erode` with the `3 × 3` ones kernel: a pixel survives iff every
in-bounds neighbor is set. -/
def erode3 (hh ww : Nat) (m : Nat → Nat → Bool) (i j : Nat) : Bool :=
  kernelOffs.all fun di => kernelOffs.all fun dj =>
    !(decide (1 ≤ i + di) && decide (i + di ≤ hh) && decide (1 ≤ j + dj) &&
        decide (j + dj ≤ ww)) || m (i + di - 1) (j + dj - 1)

/-- `cv2.morphologyEx(mask, MORPH_CLOSE, ones(3,3))` (`src/controllers.py`
lines 99-100): dilate, then erode. -/
def closeMask (hh ww : Nat) (m : Nat → Nat → Bool) : Nat → Nat → Bool :=
  fun i j => erode3 hh ww (fun a b => dilate3 hh ww m a b) i j

/-- The scanline height fractions, near to far (`src/controllers.py` line
113). -/
def sampleFractions : List ℚ := [4/5, 3/5, 2/5, 3/10]

/-- `int(h * row_pct)`: the sampled row index (truncation of a nonnegative
product, hence the floor). -/
def rowOf (hh : Nat) (q : ℚ) : Nat := (⌊q * (hh:ℚ)⌋).toNat

/-- `np.where(row_data > 0)[0]`: the ascending column indices of set mask
pixels in row `r`. -/
def maskedCols (m : Nat → Nat → Bool) (ww r : Nat) : List Nat :=
  (List.range ww).filter (fun j => m r j)

/-- `.min()` of a NumPy index array, as a fold over the elements. -/
def natListMin : List Nat → Nat
  | [] => 0
  | a :: l => l.foldl min a

/-- `.max()` of a NumPy index array, as a fold over the elements. -/
def natListMax : List Nat → Nat
  | [] => 0
  | a :: l => l.foldl max a

/-- One scanline of `VisionSystem.process_camera_view` (`src/controllers.py`
lines 113-126): skip out-of-range rows, require at least two masked pixels,
record `(min + max) / 2 / w`. -/
def rowCenter (m : Nat → Nat → Bool) (hh ww : Nat) (q : ℚ) : Option ℚ :=
  if rowOf hh q < hh then
    if 2 ≤ (maskedCols m ww (rowOf hh q)).length then
      some ((((natListMin (maskedCols m ww (rowOf hh q)) : ℚ)
          + (natListMax (maskedCols m ww (rowOf hh q)) : ℚ)) / 2) / ww)
    else none
  else none

/-- The fusion weights (`src/controllers.py` line 140). -/
def weightTable : List ℚ := [2/5, 3/10, 1/5, 1/10]

/-- The per-row centers found, in scan order. -/
def laneCenters (m : Nat → Nat → Bool) (hh ww : Nat) : List ℚ :=
  sampleFractions.filterMap (rowCenter m hh ww)

/-- `VisionSystem.process_camera_view` (`src/controllers.py` lines 84-145):
mask the detection color, close morphologically, scan the four rows, and
either return the weighted average of the found centers (weights truncated
to their number, divided by the truncated weight sum) or default to `0.5`.
The debug-overlay drawing in the source has no effect on the returned
estimate and is omitted. -/
def process_camera_view (img : Nat → Nat → HSVPixel) (hh ww : Nat) : ℚ :=
  if (laneCenters (closeMask hh ww (colorMask img)) hh ww).isEmpty then 1/2
  else (List.zipWith (fun c w => c * w)
          (laneCenters (closeMask hh ww (colorMask img)) hh ww)
          (weightTable.take (laneCenters (closeMask hh ww (colorMask img)) hh ww).length)).sum
        / (weightTable.take (laneCenters (closeMask hh ww (colorMask img)) hh ww).length).sum

/-- Weight of the `i`-th detected row, as the claim words it: the `i`-th
entry of `(0.4, 0.3, 0.2, 0.1)`. -/
def weightAt (i : Nat) : ℚ := weightTable.getD i 0

/-- The claim's weighted average `Σ wᵢ·cᵢ / Σ wᵢ` over the rows that yielded
a center, renormalized by the sum of the used weights. -/
def specFusedEstimate (cs : List ℚ) : ℚ :=
  (∑ i ∈ Finset.range cs.length, weightAt i * cs.getD i 0)
    / (∑ i ∈ Finset.range cs.length, weightAt i)

lemma laneCenters_length_le (m : Nat → Nat → Bool) (hh ww : Nat) :
    (laneCenters m hh ww).length ≤ 4 := by
  have h := List.length_filterMap_le (rowCenter m hh ww) sampleFractions
  simpa [laneCenters, sampleFractions] using h

lemma laneCenters_ne_nil (m : Nat → Nat → Bool) (hh ww : Nat)
    (hrow : ∃ q ∈ sampleFractions,
      rowOf hh q < hh ∧ 2 ≤ (maskedCols m ww (rowOf hh q)).length) :
    laneCenters m hh ww ≠ [] := by
  obtain ⟨q, hq, hlt, hlen⟩ := hrow
  intro hnil
  have hnone : rowCenter m hh ww q = none :=
    List.filterMap_eq_nil_iff.mp hnil q hq
  rw [rowCenter, if_pos hlt, if_pos hlen] at hnone
  simp at hnone

lemma fuse_eq_spec (cs : List ℚ) (hlen : cs.length ≤ 4) :
    (List.zipWith (fun c w => c * w) cs (weightTable.take cs.length)).sum
      / (weightTable.take cs.length).sum = specFusedEstimate cs := by
  rcases cs with _ | ⟨a, _ | ⟨b, _ | ⟨c, _ | ⟨d, rest⟩⟩⟩⟩
  · simp [specFusedEstimate]
  · simp [specFusedEstimate, weightAt, weightTable, Finset.sum_range_succ]
  · simp [specFusedEstimate, weightAt, weightTable, Finset.sum_range_succ]
    ring
  · simp [specFusedEstimate, weightAt, weightTable, Finset.sum_range_succ]
    ring
  · have hrest : rest = [] := by
      simp only [List.length_cons] at hlen
      exact List.eq_nil_of_length_eq_zero (by omega)
    subst hrest
    simp [specFusedEstimate, weightAt, weightTable, Finset.sum_range_succ]
    ring

/-- C3: whenever at least one of the four sampled rows (height fractions
0.8, 0.6, 0.4, 0.3, scanned near to far) contains at least 2 masked pixels,
the detector returns `Σ wᵢ·cᵢ / Σ wᵢ`, where `cᵢ` is `(min + max) / 2` of
the masked x-coordinates of the `i`-th detected row normalized by the image
width, and the weights are the prefix of `(0.4, 0.3, 0.2, 0.1)` of length
equal to the number of rows that yielded a center: the estimate is
renormalized by the sum of the used weights, not by the full weight sum. -/
theorem C3_weighted_fusion (img : Nat → Nat → HSVPixel) (hh ww : Nat)
    (hrow : ∃ q ∈ sampleFractions,
      rowOf hh q < hh ∧
        2 ≤ (maskedCols (closeMask hh ww (colorMask img)) ww (rowOf hh q)).length) :
    process_camera_view img hh ww
      = specFusedEstimate (laneCenters (closeMask hh ww (colorMask img)) hh ww) := by
  have hne := laneCenters_ne_nil (closeMask hh ww (colorMask img)) hh ww hrow
  have h4 := laneCenters_length_le (closeMask hh ww (colorMask img)) hh ww
  rw [process_camera_view, if_neg (by simpa [List.isEmpty_iff] using hne)]
  exact fuse_eq_spec _ h4

/-- A test image whose detection-color mask is two full-height vertical
lines, at columns 0 and 2. -/
def imgW : Nat → Nat → HSVPixel := fun _ j =>
  if j = 0 ∨ j = 2 then { hue := 60, sat := 200, val := 200 }
  else { hue := 0, sat := 0, val := 0 }

lemma rowOf_10_45 : rowOf 10 (4/5) = 8 := by
  rw [rowOf]
  norm_num
  decide

lemma rowOf_10_35 : rowOf 10 (3/5) = 6 := by
  rw [rowOf]
  norm_num
  decide

lemma rowOf_10_25 : rowOf 10 (2/5) = 4 := by
  rw [rowOf]
  norm_num
  decide

lemma rowOf_10_310 : rowOf 10 (3/10) = 3 := by
  rw [rowOf]
  norm_num
  decide

lemma imgW_row_hyp :
    ∃ q ∈ sampleFractions,
      rowOf 10 q < 10 ∧
        2 ≤ (maskedCols (closeMask 10 5 (colorMask imgW)) 5 (rowOf 10 q)).length := by
  refine ⟨4/5, by simp [sampleFractions], ?_, ?_⟩
  · rw [rowOf_10_45]
    norm_num
  · rw [rowOf_10_45]
    decide

/-- Witness for C3 on a `10 × 5` frame of `imgW`: the nearest sampled row
detects at least two masked pixels. -/
theorem C3_weighted_fusion_witness :
    (∃ q ∈ sampleFractions,
      rowOf 10 q < 10 ∧
        2 ≤ (maskedCols (closeMask 10 5 (colorMask imgW)) 5 (rowOf 10 q)).length) ∧
    process_camera_view imgW 10 5
      = specFusedEstimate (laneCenters (closeMask 10 5 (colorMask imgW)) 10 5) :=
  ⟨imgW_row_hyp, C3_weighted_fusion imgW 10 5 imgW_row_hyp⟩

lemma foldl_choice_mem (f : Nat → Nat → Nat) (hf : ∀ a b, f a b = a ∨ f a b = b) :
    ∀ (l : List Nat) (a : Nat), l.foldl f a ∈ a :: l := by
  intro l
  induction l with
  | nil => intro a; simp
  | cons b l ih =>
    intro a
    simp only [List.foldl_cons]
    rcases List.mem_cons.mp (ih (f a b)) with h1 | h1
    · rw [h1]
      rcases hf a b with h2 | h2 <;> rw [h2] <;> simp
    · simp [h1]

lemma natListMin_mem (l : List Nat) (hl : l ≠ []) : natListMin l ∈ l := by
  cases l with
  | nil => simp at hl
  | cons a l =>
    simpa [natListMin] using foldl_choice_mem min (fun a b => min_choice a b) l a

lemma natListMax_mem (l : List Nat) (hl : l ≠ []) : natListMax l ∈ l := by
  cases l with
  | nil => simp at hl
  | cons a l =>
    simpa [natListMax] using foldl_choice_mem max (fun a b => max_choice a b) l a

lemma rowCenter_bounds (m : Nat → Nat → Bool) (hh ww : Nat) (q c : ℚ)
    (h : rowCenter m hh ww q = some c) : 0 ≤ c ∧ c ≤ 1 := by
  rw [rowCenter] at h
  by_cases h1 : rowOf hh q < hh
  · rw [if_pos h1] at h
    by_cases h2 : 2 ≤ (maskedCols m ww (rowOf hh q)).length
    · rw [if_pos h2] at h
      have hx := Option.some.inj h
      have hne : maskedCols m ww (rowOf hh q) ≠ [] := by
        intro h0
        rw [h0] at h2
        simp at h2
      have hub : ∀ x ∈ maskedCols m ww (rowOf hh q), x < ww := by
        intro x hxm
        have hx' : x < ww ∧ m (rowOf hh q) x = true := by simpa [maskedCols] using hxm
        exact hx'.1
      have hmnw := hub _ (natListMin_mem _ hne)
      have hmxw := hub _ (natListMax_mem _ hne)
      have hwwQ : (0:ℚ) < (ww:ℚ) := by
        exact_mod_cast Nat.lt_of_le_of_lt (Nat.zero_le _) hmnw
      have a1 : ((natListMin (maskedCols m ww (rowOf hh q)) : ℚ)) + 1 ≤ ww := by
        exact_mod_cast hmnw
      have a2 : ((natListMax (maskedCols m ww (rowOf hh q)) : ℚ)) + 1 ≤ ww := by
        exact_mod_cast hmxw
      subst hx
      constructor
      · positivity
      · rw [div_le_one hwwQ, div_le_iff₀ (by norm_num : (0:ℚ) < 2)]
        linarith
    · rw [if_neg h2] at h
      exact absurd h (by simp)
  · rw [if_neg h1] at h
    exact absurd h (by simp)

lemma laneCenters_bounds (m : Nat → Nat → Bool) (hh ww : Nat) :
    ∀ c ∈ laneCenters m hh ww, 0 ≤ c ∧ c ≤ 1 := by
  intro c hc
  obtain ⟨q, hq, hsome⟩ := List.mem_filterMap.mp hc
  exact rowCenter_bounds m hh ww q c hsome

lemma zipWith_sum_nonneg :
    ∀ (cs ws : List ℚ), (∀ c ∈ cs, 0 ≤ c) → (∀ w ∈ ws, 0 ≤ w) →
      0 ≤ (List.zipWith (fun c w => c * w) cs ws).sum
  | [], _, _, _ => by simp
  | _ :: _, [], _, _ => by simp
  | a :: l, b :: ws', hcs, hws => by
    simp only [List.zipWith_cons_cons, List.sum_cons]
    have h1 : 0 ≤ a * b := mul_nonneg (hcs a (by simp)) (hws b (by simp))
    have h2 := zipWith_sum_nonneg l ws' (fun c hc => hcs c (by simp [hc]))
      (fun w hw => hws w (by simp [hw]))
    linarith

lemma zipWith_sum_le :
    ∀ (cs ws : List ℚ), (∀ c ∈ cs, c ≤ 1) → (∀ c ∈ cs, 0 ≤ c) → (∀ w ∈ ws, 0 ≤ w) →
      (List.zipWith (fun c w => c * w) cs ws).sum ≤ (ws.take cs.length).sum
  | [], _, _, _, _ => by simp
  | _ :: _, [], _, _, _ => by simp
  | a :: l, b :: ws', hle, hnn, hws => by
    simp only [List.zipWith_cons_cons, List.sum_cons, List.length_cons, List.take_succ_cons]
    have h1 : a * b ≤ b := by
      have h := mul_le_mul_of_nonneg_right (hle a (by simp)) (hws b (by simp))
      simpa using h
    have h2 := zipWith_sum_le l ws' (fun c hc => hle c (by simp [hc]))
      (fun c hc => hnn c (by simp [hc])) (fun w hw => hws w (by simp [hw]))
    linarith

lemma weightTable_nonneg : ∀ w ∈ weightTable, 0 ≤ w := by
  intro w hw
  rcases (by simpa [weightTable] using hw : w = 2/5 ∨ w = 3/10 ∨ w = 1/5 ∨ w = 1/10) with
    rfl | rfl | rfl | rfl <;> norm_num

lemma weightTable_take_pos (n : Nat) : 0 < (weightTable.take (n + 1)).sum := by
  rcases n with _ | _ | _ | n
  · norm_num [weightTable]
  · norm_num [weightTable]
  · norm_num [weightTable]
  · rw [List.take_of_length_le (by simp [weightTable])]
    norm_num [weightTable]

lemma fuse_bounds (cs : List ℚ) (hne : cs ≠ [])
    (hb : ∀ c ∈ cs, 0 ≤ c ∧ c ≤ 1) :
    0 ≤ (List.zipWith (fun c w => c * w) cs (weightTable.take cs.length)).sum
          / (weightTable.take cs.length).sum ∧
    (List.zipWith (fun c w => c * w) cs (weightTable.take cs.length)).sum
          / (weightTable.take cs.length).sum ≤ 1 := by
  obtain ⟨a, l, rfl⟩ : ∃ a l, cs = a :: l := by
    cases cs with
    | nil => exact absurd rfl hne
    | cons a l => exact ⟨a, l, rfl⟩
  have hpos : 0 < (weightTable.take (a :: l).length).sum := by
    simpa [List.length_cons] using weightTable_take_pos l.length
  have hws : ∀ w ∈ weightTable.take (a :: l).length, 0 ≤ w := fun w hw =>
    weightTable_nonneg w (List.take_subset _ _ hw)
  have h0 := zipWith_sum_nonneg (a :: l) _ (fun c hc => (hb c hc).1) hws
  have h1 := zipWith_sum_le (a :: l) _ (fun c hc => (hb c hc).2) (fun c hc => (hb c hc).1) hws
  refine ⟨div_nonneg h0 hpos.le, ?_⟩
  rw [div_le_one hpos]
  simpa [List.take_take] using h1

/-- C4 (amended): for every forward image the returned lane estimate lies in
`[0, 1]`; and when no sampled row of the (morphologically closed) mask
contains at least 2 masked pixels - in particular for an image with no
boundary-color pixels at all - the detector returns exactly `0.5`. -/
theorem C4_detect_default_range (img : Nat → Nat → HSVPixel) (hh ww : Nat) :
    0 ≤ process_camera_view img hh ww ∧ process_camera_view img hh ww ≤ 1 ∧
    ((∀ q ∈ sampleFractions, rowOf hh q < hh →
        (maskedCols (closeMask hh ww (colorMask img)) ww (rowOf hh q)).length < 2) →
      process_camera_view img hh ww = 1/2) := by
  by_cases hempty : laneCenters (closeMask hh ww (colorMask img)) hh ww = []
  · have hdet : process_camera_view img hh ww = 1/2 := by
      rw [process_camera_view, if_pos (by simp [hempty])]
    refine ⟨by rw [hdet]; norm_num, by rw [hdet]; norm_num, fun _ => hdet⟩
  · have hdet : process_camera_view img hh ww
        = (List.zipWith (fun c w => c * w)
            (laneCenters (closeMask hh ww (colorMask img)) hh ww)
            (weightTable.take (laneCenters (closeMask hh ww (colorMask img)) hh ww).length)).sum
          / (weightTable.take
              (laneCenters (closeMask hh ww (colorMask img)) hh ww).length).sum := by
      rw [process_camera_view, if_neg (by simpa [List.isEmpty_iff] using hempty)]
    obtain ⟨hb0, hb1⟩ := fuse_bounds _ hempty
      (laneCenters_bounds (closeMask hh ww (colorMask img)) hh ww)
    refine ⟨by rw [hdet]; exact hb0, by rw [hdet]; exact hb1, ?_⟩
    intro hnone
    exfalso
    apply hempty
    rw [laneCenters]
    apply List.filterMap_eq_nil_iff.mpr
    intro q hq
    rw [rowCenter]
    by_cases h1 : rowOf hh q < hh
    · have hlt := hnone q hq h1
      rw [if_pos h1, if_neg (by omega)]
    · rw [if_neg h1]

/-- The all-black test image: no pixels in the detection color range. -/
def imgBlack : Nat → Nat → HSVPixel := fun _ _ => { hue := 0, sat := 0, val := 0 }

lemma imgBlack_no_rows :
    ∀ q ∈ sampleFractions, rowOf 10 q < 10 →
      (maskedCols (closeMask 10 5 (colorMask imgBlack)) 5 (rowOf 10 q)).length < 2 := by
  intro q hq
  rcases (by simpa [sampleFractions] using hq :
      q = 4/5 ∨ q = 3/5 ∨ q = 2/5 ∨ q = 3/10) with rfl | rfl | rfl | rfl
  · rw [rowOf_10_45]
    intro h
    decide
  · rw [rowOf_10_35]
    intro h
    decide
  · rw [rowOf_10_25]
    intro h
    decide
  · rw [rowOf_10_310]
    intro h
    decide

/-- Witness for C4 (amended) on the all-black `10 × 5` frame. -/
theorem C4_detect_default_range_witness :
    0 ≤ process_camera_view imgBlack 10 5 ∧ process_camera_view imgBlack 10 5 ≤ 1 ∧
      process_camera_view imgBlack 10 5 = 1/2 := by
  obtain ⟨h1, h2, h3⟩ := C4_detect_default_range imgBlack 10 5
  exact ⟨h1, h2, h3 imgBlack_no_rows⟩

/-- A test image whose detection-color pixels sit only at rows 7 and 9
(columns 0 and 4), both of which are not sampled rows of a height-10 frame:
morphological closing bridges the vertical one-pixel gap and promotes
pixels into sampled row 8. -/
def imgGap : Nat → Nat → HSVPixel := fun i j =>
  if (i = 7 ∨ i = 9) ∧ (j = 0 ∨ j = 4) then { hue := 60, sat := 200, val := 200 }
  else { hue := 0, sat := 0, val := 0 }

lemma imgGap_row8 :
    rowCenter (closeMask 10 5 (colorMask imgGap)) 10 5 (4/5) = some (2/5) := by
  rw [rowCenter, rowOf_10_45, if_pos (by norm_num)]
  rw [show maskedCols (closeMask 10 5 (colorMask imgGap)) 5 8 = [0, 4] from by decide]
  rw [if_pos (by decide)]
  rw [show natListMin [0, 4] = 0 from rfl, show natListMax [0, 4] = 4 from rfl]
  norm_num

lemma imgGap_row6 :
    rowCenter (closeMask 10 5 (colorMask imgGap)) 10 5 (3/5) = none := by
  rw [rowCenter, rowOf_10_35, if_pos (by norm_num)]
  rw [show maskedCols (closeMask 10 5 (colorMask imgGap)) 5 6 = [] from by decide]
  rw [if_neg (by decide)]

lemma imgGap_row4 :
    rowCenter (closeMask 10 5 (colorMask imgGap)) 10 5 (2/5) = none := by
  rw [rowCenter, rowOf_10_25, if_pos (by norm_num)]
  rw [show maskedCols (closeMask 10 5 (colorMask imgGap)) 5 4 = [] from by decide]
  rw [if_neg (by decide)]

lemma imgGap_row3 :
    rowCenter (closeMask 10 5 (colorMask imgGap)) 10 5 (3/10) = none := by
  rw [rowCenter, rowOf_10_310, if_pos (by norm_num)]
  rw [show maskedCols (closeMask 10 5 (colorMask imgGap)) 5 3 = [] from by decide]
  rw [if_neg (by decide)]

lemma imgGap_laneCenters :
    laneCenters (closeMask 10 5 (colorMask imgGap)) 10 5 = [2/5] := by
  rw [laneCenters, sampleFractions]
  simp only [List.filterMap_cons, List.filterMap_nil, imgGap_row8, imgGap_row6,
    imgGap_row4, imgGap_row3]

lemma imgGap_detect : process_camera_view imgGap 10 5 = 2/5 := by
  rw [process_camera_view, imgGap_laneCenters]
  norm_num [weightTable]

/-- C4 counterexample: on `imgGap` no sampled row (8, 6, 4, 3 of a `10 × 5`
frame) contains even one pixel in the detection color range, yet the
detector does not return `0.5` (it returns `0.4`, because morphological
closing promotes masked pixels into sampled row 8). -/
theorem C4_colorRange_cex :
    (maskedCols (colorMask imgGap) 5 (rowOf 10 (4/5))).length < 2 ∧
    (maskedCols (colorMask imgGap) 5 (rowOf 10 (3/5))).length < 2 ∧
    (maskedCols (colorMask imgGap) 5 (rowOf 10 (2/5))).length < 2 ∧
    (maskedCols (colorMask imgGap) 5 (rowOf 10 (3/10))).length < 2 ∧
    process_camera_view imgGap 10 5 ≠ 1/2 := by
  refine ⟨?_, ?_, ?_, ?_, ?_⟩
  · rw [rowOf_10_45]
    decide
  · rw [rowOf_10_35]
    decide
  · rw [rowOf_10_25]
    decide
  · rw [rowOf_10_310]
    decide
  · rw [imgGap_detect]
    norm_num
